import Mathlib

/-!
Shallow embedding of the LUT-finder pass of `src/sat/sat_lut_finder.cpp`
(z3 SAT preprocessing). Machine 64-bit words are modelled as `Nat`; every
quantity the source keeps in a `uint64_t` provably stays below `2 ^ 64`,
so no explicit truncation is required at the points embedded here (shift
amounts are bounded by 64 in every reachable call).
-/

namespace SatLut

/-- Literal of the SAT solver: a variable paired with a sign. -/
structure Literal where
  var : Nat
  sign : Bool
deriving DecidableEq, Repr

/-- Negation of a literal (`operator~` / `neg()` on `sat::literal`). -/
def Literal.negate (l : Literal) : Literal := ⟨l.var, !l.sign⟩

/-- Index of a literal (`sat::literal::index()`): `2 * var + sign`. -/
def Literal.index (l : Literal) : Nat := 2 * l.var + (if l.sign then 1 else 0)

/-- Clause of the database: its literals and the flags the pass reads.
The `used` flag is tracked separately (per clause id) by the pass state. -/
structure Clause where
  lits : List Literal
  learned : Bool
  removedFlag : Bool
deriving DecidableEq, Repr

/-- Default clause used to resolve out-of-range ids. -/
def defaultClause : Clause := ⟨[], false, false⟩

/-- Inner while-loop of `lut_finder::init_mask`: repeat `m |= m << w; w *= 2`
while `w < 64`.  Fuel 6 covers every start width `2 ^ (i+1)` with `i ≤ 6`. -/
def maskLoop : Nat → Nat → Nat → Nat
  | 0, m, _ => m
  | fuel + 1, m, w => if w < 64 then maskLoop fuel (m ||| (m <<< w)) (2 * w) else m

/-- Embedding of `lut_finder::init_mask(i)` producing `m_masks[i]`. -/
def init_mask (i : Nat) : Nat :=
  if i = 6 then 2 ^ 64 - 1
  else maskLoop 6 ((1 <<< (1 <<< i)) - 1) (1 <<< (i + 1))

/-- Embedding of `lut_finder::lut_is_defined(unsigned i, unsigned sz)`:
OR the combination word with itself shifted right by `2 ^ i` and test the
(possibly truncated) mask for position `i`. -/
def lut_is_defined_at (i sz comb : Nat) : Bool :=
  let c := comb ||| (comb >>> (1 <<< i))
  let m := if sz < 6 then init_mask i &&& ((1 <<< sz) - 1) else init_mask i
  (c &&& m) == m

/-- Embedding of `lut_finder::lut_is_defined(unsigned sz)`: reject when the
witnessed-row count is below `2 ^ (sz / 2)`, otherwise scan positions. -/
def lut_is_defined (num_combinations comb sz : Nat) : Bool :=
  if num_combinations < 1 <<< (sz / 2) then false
  else (List.range sz).any (fun i => lut_is_defined_at i sz comb)

/-- Attempt-local state of `lut_finder` while one seed clause is examined:
`m_vars`, `m_combination`, `m_num_combinations`, `m_clauses_to_remove`
(the latter as clause ids into the database). -/
structure Attempt where
  vars : List Nat
  combination : Nat
  num_combinations : Nat
  toRemove : List Nat
deriving DecidableEq, Repr

/-- Modelled from the spec: `set_combination` is declared in
`sat_lut_finder.h`, which is not among the provided sources.  Spec section
4.3, `setRow(mask)`: if bit `mask` is unset, set it and increment the
witnessed-row count. -/
def set_combination (st : Attempt) (mask : Nat) : Attempt :=
  if st.combination.testBit mask then st
  else { st with combination := st.combination ||| (1 <<< mask),
                 num_combinations := st.num_combinations + 1 }

/-- Inner loop of `lut_finder::update_combinations` computing `mask2` for a
given enumeration index `k`: bit `i` of `k` decides whether missing
position `m_missing[i]` is set on top of `mask`. -/
def mask2Aux (k : Nat) : List Nat → Nat → Nat → Nat
  | [], _, m2 => m2
  | q :: rest, i, m2 =>
      mask2Aux k rest (i + 1) (if k.testBit i then m2 ||| (1 <<< q) else m2)

/-- Row mask obtained from base `mask` by applying completion `k` to the
missing positions (the body of `update_combinations`'s outer loop). -/
def mask2_of (mask : Nat) (missing : List Nat) (k : Nat) : Nat :=
  mask2Aux k missing 0 mask

/-- Embedding of `lut_finder::update_combinations(unsigned mask)`: set the
row for every completion of the missing positions, then report whether the
LUT is now defined. -/
def update_combinations (st : Attempt) (mask : Nat) (missing : List Nat) :
    Attempt × Bool :=
  let st2 := (List.range (2 ^ missing.length)).foldl
      (fun s k => set_combination s (mask2_of mask missing k)) st
  (st2, lut_is_defined st2.num_combinations st2.combination st2.vars.length)

/-- First position `i < sz` that `lut_is_defined_at` accepts; `sz` when
none is found (the search loop opening `convert_combination`). -/
def first_defined (comb sz : Nat) : Nat :=
  ((List.range sz).find? (fun i => lut_is_defined_at i sz comb)).getD sz

/-- Embedding of `lut_finder::convert_combination`: pick the first defined
position, erase its variable, and fold the word into a truth table.  Only
the `i = 0` branch of the switch fills `r`; the `i = 1` branch's loop body
is empty and the default branch does nothing, so both leave `r = 0`. -/
def convert_combination (comb : Nat) (vars : List Nat) :
    Nat × Nat × List Nat :=
  let i := first_defined comb vars.length
  let v := vars.getD i 0
  let vars2 := vars.erase v
  let r :=
    if i = 0 then
      (List.range (2 ^ vars2.length)).foldl
        (fun r j => if comb &&& (1 <<< (2 * j)) = 0 then r ||| (1 <<< j) else r) 0
    else 0
  (r, v, vars2)

/-- Embedding of `lut_finder::get_clause_filter`: OR of `1 << (var % 32)`
over the clause's literals. -/
def get_clause_filter (c : Clause) : Nat :=
  c.lits.foldl (fun f l => f ||| (1 <<< (l.var % 32))) 0

/-- Modelled from the spec: `s.all_distinct(c)` is solver code outside the
provided sources.  Spec section 6, `allDistinctVariables(clause)`: true if
no variable repeats in the clause. -/
def all_distinct (c : Clause) : Prop := (c.lits.map Literal.var).Nodup

instance (c : Clause) : Decidable (all_distinct c) := by
  unfold all_distinct; infer_instance

/-- Embedding of `lut_finder::init_clause_filter(clause_vector&)` as the
resulting per-variable index: clause `cid` contributes the pair
`(filter, cid)` to variable `v`'s list when the clause is short enough,
has pairwise-distinct variables and mentions `v`. -/
def init_clause_filter (maxSz : Nat) (clauses : List Clause) :
    Nat → List (Nat × Nat) := fun v =>
  (clauses.enum.filter (fun p =>
      p.2.lits.length ≤ maxSz ∧ all_distinct p.2 ∧
        v ∈ p.2.lits.map Literal.var)).map
    (fun p => (get_clause_filter p.2, p.1))

/-- Pass-global state: the `used` flags (as the list of marked clause ids),
`m_removed_clauses`, and the LUTs reported through the `m_on_lut` callback
(truth table, remaining variables, output variable). -/
structure PassSt where
  used : List Nat
  removed : List Nat
  luts : List (Nat × List Nat × Nat)
deriving DecidableEq, Repr

/-- Combined state while `check_lut` runs: attempt-local plus global. -/
structure CheckSt where
  att : Attempt
  g : PassSt
deriving DecidableEq, Repr

/-- Embedding of `m_var_position` as set up by `check_lut`: position `i`
is written for the variable of the i-th seed literal, later writes
overwriting earlier ones. -/
def var_position (vars : List Nat) : Nat → Nat :=
  vars.enum.foldl (fun f p => Function.update f p.2 p.1) (fun _ => 0)

/-- Embedding of the `m_clause` scratch array as filled by
`extract_lut(clause&)`: start all `null_literal`, then write each literal
of `c2` at its variable's position. -/
def m_clause_of (vars : List Nat) (c2 : List Literal) :
    List (Option Literal) :=
  c2.foldl (fun arr l => arr.set (var_position vars l.var) (some l))
    (List.replicate vars.length none)

/-- Row mask read back from the scratch array (`mask |= sign << j`). -/
def mask_of (arr : List (Option Literal)) : Nat :=
  arr.enum.foldl
    (fun m p =>
      match p.2 with
      | some l => m ||| ((if l.sign then 1 else 0) <<< p.1)
      | none => m) 0

/-- Missing positions read back from the scratch array (`null_literal`
entries, in ascending position order as in the source loop). -/
def missing_of (arr : List (Option Literal)) : List Nat :=
  arr.enum.filterMap (fun p => if p.2 = none then some p.1 else none)

/-- Embedding of `lut_finder::extract_lut(clause& c2)`.  The clause is
fetched by id; the visited check is membership in `m_vars` (inside
`check_lut` exactly the seed variables are marked visited).  A clause of
full size is scheduled for removal and marked used before the
combinations are updated. -/
def extract_lut_clause (db : List Clause) (st : CheckSt) (cid : Nat) :
    CheckSt × Bool :=
  let c2 := (db.getD cid defaultClause).lits
  if c2.all (fun l => l.var ∈ st.att.vars) then
    let st :=
      if c2.length = st.att.vars.length then
        { st with att := { st.att with toRemove := st.att.toRemove ++ [cid] },
                  g := { st.g with used := st.g.used ++ [cid] } }
      else st
    let arr := m_clause_of st.att.vars c2
    let r := update_combinations st.att (mask_of arr) (missing_of arr)
    ({ st with att := r.1 }, r.2)
  else (st, false)

/-- Embedding of `lut_finder::extract_lut(literal l1, literal l2)`:
positions matching neither variable become missing; matching positions
contribute their sign bit to the mask. -/
def extract_lut_bin (st : Attempt) (l1 l2 : Literal) : Attempt × Bool :=
  let mm := st.vars.enum.foldl
    (fun (p : Nat × List Nat) iv =>
      if iv.2 = l1.var then
        (p.1 ||| ((if l1.sign then 1 else 0) <<< iv.1), p.2)
      else if iv.2 = l2.var then
        (p.1 ||| ((if l2.sign then 1 else 0) <<< iv.1), p.2)
      else (p.1, p.2 ++ [iv.1])) (0, [])
  update_combinations st mm.1 mm.2

/-- Embedding of `lut_finder::add_lut`: append `m_clauses_to_remove` to
`m_removed_clauses`, convert the combination and report the LUT. -/
def add_lut (st : CheckSt) : CheckSt :=
  let r := convert_combination st.att.combination st.att.vars
  { st with
    g := { st.g with removed := st.g.removed ++ st.att.toRemove,
                     luts := st.g.luts ++ [(r.1, r.2.2, r.2.1)] } }

/-- Solver context consumed by the pass: the clause database (also the
source of the clause-filter index) and the binary watch lists, already
projected to their binary entries (`w.is_binary_clause()` filtering). -/
structure Solver where
  num_vars : Nat
  clauses : List Clause
  wlist : Literal → List Literal

/-- Seed row mask of `check_lut`: `mask |= l.sign() << i` over the seed
literals in order. -/
def seed_mask (lits : List Literal) : Nat :=
  lits.enum.foldl
    (fun m p => m ||| ((if p.2.sign then 1 else 0) <<< p.1)) 0

/-- Extension events tried by `check_lut`, in source order. -/
inductive Ev where
  | cl (f : Nat) (cid : Nat)
  | bin (l1 l2 : Literal)
deriving DecidableEq, Repr

/-- Event list of one attempt: per seed literal `l`, first the entries of
the clause-filter index for `l.var`, then the binary entries of
`wlist(l)` (visited and index-ordered), then those of `wlist(~l)`. -/
def attempt_events (s : Solver) (filters : Nat → List (Nat × Nat))
    (seedLits : List Literal) : List Ev :=
  seedLits.flatMap (fun l =>
    (filters l.var).map (fun p => Ev.cl p.1 p.2) ++
    ((s.wlist l).filter (fun w =>
        w.var ∈ seedLits.map Literal.var ∧ w.index < l.index)).map
      (Ev.bin l.negate) ++
    ((s.wlist l.negate).filter (fun w =>
        w.var ∈ seedLits.map Literal.var ∧ w.index < l.negate.index)).map
      (Ev.bin l))

/-- Running state of the matching loop: the combined state plus whether
`add_lut` has already fired (after which `check_lut` returns). -/
structure RunSt where
  st : CheckSt
  done : Bool
deriving DecidableEq, Repr

/-- One step of the matching loop of `check_lut`: filter-index clauses are
guarded by the coarse-filter superset test and the `used` flag; every
successful extraction triggers `add_lut` and stops the loop. -/
def check_step (db : List Clause) (filter : Nat) (r : RunSt) (e : Ev) :
    RunSt :=
  if r.done then r
  else
    match e with
    | .cl f cid =>
        if filter = (filter ||| f) ∧ cid ∉ r.st.g.used then
          let p := extract_lut_clause db r.st cid
          if p.2 then ⟨add_lut p.1, true⟩ else ⟨p.1, false⟩
        else r
    | .bin l1 l2 =>
        let p := extract_lut_bin r.st.att l1 l2
        let st2 := { r.st with att := p.1 }
        if p.2 then ⟨add_lut st2, true⟩ else ⟨st2, false⟩

/-- SEED step of `lut_finder::check_lut`: record the seed variables,
reset the accumulator to the seed's own row, schedule the seed for
removal and mark it used. -/
def check_start (s : Solver) (g : PassSt) (cid : Nat) : RunSt :=
  let c := s.clauses.getD cid defaultClause
  ⟨⟨set_combination
      { vars := c.lits.map Literal.var, combination := 0,
        num_combinations := 0, toRemove := [cid] } (seed_mask c.lits),
    { g with used := g.used ++ [cid] }⟩, false⟩

/-- Embedding of `lut_finder::check_lut(clause& c)` for the clause with id
`cid`: seed the attempt (variables, row mask, mark used), then run the
matching loop.  Returns the new global state and whether a LUT was
found. -/
def check_lut (s : Solver) (filters : Nat → List (Nat × Nat))
    (g : PassSt) (cid : Nat) : PassSt × Bool :=
  let c := s.clauses.getD cid defaultClause
  let r := (attempt_events s filters c.lits).foldl
      (check_step s.clauses (get_clause_filter c)) (check_start s g cid)
  (r.st.g, r.done)

/-- Iteration schedule of `operator()`: sizes from `maxSz` down to 3, and
for each size every clause index in database order. -/
def pass_schedule (maxSz nClauses : Nat) : List (Nat × Nat) :=
  ((List.range (maxSz - 2)).map (fun k => maxSz - k)).flatMap
    (fun msz => (List.range nClauses).map (fun i => (msz, i)))

/-- One iteration of the driver loops of `operator()`: run `check_lut` on
clause `mi.2` when it has the targeted size `mi.1`, is not removed, not
learned and not used.  The log records each attempted seed and whether it
succeeded. -/
def pass_step (s : Solver) (filters : Nat → List (Nat × Nat))
    (acc : PassSt × List (Nat × Bool)) (mi : Nat × Nat) :
    PassSt × List (Nat × Bool) :=
  let c := s.clauses.getD mi.2 defaultClause
  if c.lits.length = mi.1 ∧ c.removedFlag = false ∧ c.learned = false ∧
      mi.2 ∉ acc.1.used then
    let r := check_lut s filters acc.1 mi.2
    (r.1, acc.2 ++ [(mi.2, r.2)])
  else acc

/-- Result of one pass: final global state, the attempt log, and the ids
of the clauses kept by the closing `filter_update` (all `used` flags are
cleared, the removed clauses re-marked, and marked clauses dropped). -/
structure PassResult where
  g : PassSt
  log : List (Nat × Bool)
  final : List Nat
deriving Repr

/-- Embedding of `lut_finder::operator()(clause_vector&)`. -/
def runPass (s : Solver) (maxSz : Nat) : PassResult :=
  let filters := init_clause_filter maxSz s.clauses
  let r := (pass_schedule maxSz s.clauses.length).foldl
      (pass_step s filters) (⟨[], [], []⟩, [])
  { g := r.1, log := r.2,
    final := (List.range s.clauses.length).filter (fun i => i ∉ r.1.removed) }

/-! Concrete instances used by counterexamples and witnesses. -/

/-- Small database: a size-3 seed clause over variables 0, 1, 2 and the
two size-2 clauses over {0, 1} and {1, 2}. -/
def c3db : List Clause :=
  [⟨[⟨0, false⟩, ⟨1, false⟩, ⟨2, false⟩], false, false⟩,
   ⟨[⟨0, false⟩, ⟨1, false⟩], false, false⟩,
   ⟨[⟨1, false⟩, ⟨2, false⟩], false, false⟩]

/-- State right after the SEED step of `check_lut` on clause 0 of `c3db`:
row 0 witnessed, the seed scheduled for removal and marked used. -/
def c3st0 : CheckSt := ⟨⟨[0, 1, 2], 1, 1, [0]⟩, ⟨[0], [], []⟩⟩

/-- Solver holding one isolated size-3 clause and no binary watches: its
seed attempt finds no extension and is exhausted. -/
def c4solver : Solver :=
  ⟨3, [⟨[⟨0, false⟩, ⟨1, false⟩, ⟨2, false⟩], false, false⟩], fun _ => []⟩

/-- One-clause database for the filter-index size bound witness. -/
def c10clauses : List Clause := [⟨[⟨0, false⟩, ⟨1, false⟩], false, false⟩]

/-- Wellformedness of a running matching-loop state: every scheduled
clause is already marked used (the source checks this with a
`DEBUG_CODE`/`VERIFY` block in `add_lut`). -/
def WFr (r : RunSt) : Prop := ∀ j ∈ r.st.att.toRemove, j ∈ r.st.g.used

/-- Relation between a matching-loop state and any later one: used flags
only grow, newly scheduled clauses were unused at the earlier point,
newly removed clauses were scheduled or unused at the earlier point and
end up used, and nothing is removed or reported before success. -/
def StepOk (r0 r : RunSt) : Prop :=
  (∀ j ∈ r0.st.g.used, j ∈ r.st.g.used) ∧
  (∀ j ∈ r.st.att.toRemove, j ∈ r0.st.att.toRemove ∨ j ∉ r0.st.g.used) ∧
  (∀ j ∈ r.st.g.removed, j ∈ r0.st.g.removed ∨
    ((j ∈ r0.st.att.toRemove ∨ j ∉ r0.st.g.used) ∧ j ∈ r.st.g.used)) ∧
  (r.done = false →
    r.st.g.removed = r0.st.g.removed ∧ r.st.g.luts = r0.st.g.luts) ∧
  (r0.done = true → r = r0)

/-- Invariant over the driver fold of `operator()`: removed clauses are
marked used, and every seed logged as failed stays used and unremoved. -/
def PassInv (n : Nat) (acc : PassSt × List (Nat × Bool)) : Prop :=
  (∀ j ∈ acc.1.removed, j ∈ acc.1.used) ∧
  (∀ pr ∈ acc.2, pr.1 < n ∧
    (pr.2 = false → pr.1 ∈ acc.1.used ∧ pr.1 ∉ acc.1.removed))

/-! Helper lemmas on the bit-level primitives. -/

/-- Shifting 1 left by `m` puts exactly bit `m`. -/
lemma one_shiftLeft_testBit (m p : Nat) :
    (1 <<< m).testBit p = decide (m = p) := by
  rw [Nat.shiftLeft_eq, one_mul, Nat.testBit_two_pow]

/-- A conjunction with a mask equals the mask exactly when the mask's bits
are all present. -/
lemma and_eq_right_iff (c m : Nat) :
    c &&& m = m ↔ ∀ p, m.testBit p = true → c.testBit p = true := by
  constructor
  · intro h p hp
    have := congrArg (fun x => x.testBit p) h
    simp only [Nat.testBit_and, hp, Bool.and_true] at this
    exact this
  · intro h
    apply Nat.eq_of_testBit_eq
    intro p
    rw [Nat.testBit_and]
    cases hm : m.testBit p with
    | false => simp
    | true => simp [h p hm]

/-- Value of `x &&& (1 <<< m)` is zero exactly when bit `m` of `x` is
clear. -/
lemma and_one_shiftLeft_eq_zero (x m : Nat) :
    x &&& (1 <<< m) = 0 ↔ x.testBit m = false := by
  rw [Nat.shiftLeft_eq, one_mul, Nat.and_two_pow]
  have h2 : 0 < 2 ^ m := Nat.pos_pow_of_pos m (by norm_num)
  cases h : x.testBit m <;> simp [h] <;> omega

/-- Bits of the truth-table fold of `convert_combination`'s position-0
branch: bit `p` of the fold over `List.range n` is set exactly when
`p < n` and the row test holds at `p`. -/
lemma range_foldl_or_testBit (cond : Nat → Prop) [DecidablePred cond] :
    ∀ (n r0 p : Nat),
      (((List.range n).foldl
          (fun r j => if cond j then r ||| (1 <<< j) else r) r0).testBit p)
        = (r0.testBit p || (decide (p < n) && decide (cond p))) := by
  intro n
  induction n with
  | zero => simp
  | succ n ih =>
    intro r0 p
    rw [List.range_succ, List.foldl_append]
    simp only [List.foldl_cons, List.foldl_nil]
    by_cases hc : cond n
    · rw [if_pos hc, Nat.testBit_or, ih, one_shiftLeft_testBit]
      by_cases hpn : p = n
      · subst hpn
        simp [hc]
      · have : (decide (n = p)) = false := by simp [Ne.symm hpn]
        rw [this]
        by_cases hlt : p < n
        · simp [hlt, Nat.lt_succ_of_lt hlt]
        · have h1 : ¬ p < n + 1 := by omega
          simp [hlt, h1]
    · rw [if_neg hc, ih]
      by_cases hpn : p = n
      · subst hpn
        simp [hc]
      · by_cases hlt : p < n
        · simp [hlt, Nat.lt_succ_of_lt hlt]
        · have h1 : ¬ p < n + 1 := by omega
          simp [hlt, h1]

/-! Claims about the mask table and the definedness tests. -/

/-- Claim C8: `init_mask` produces the alternating single-bit pattern for
position 0, alternating pairs for position 1, alternating 8-bit blocks for
position 3 and the all-ones word for position 6. -/
theorem init_mask_patterns :
    init_mask 0 = 0x5555555555555555 ∧
    init_mask 1 = 0x3333333333333333 ∧
    init_mask 3 = 0x00FF00FF00FF00FF ∧
    init_mask 6 = 0xFFFFFFFFFFFFFFFF := by
  refine ⟨by decide, by decide, by decide, by decide⟩

/-- Claim C9: `lut_is_defined(sz)` answers false whenever the witnessed
row count is below `2 ^ (sz / 2)`, whatever the combination word holds. -/
theorem lut_is_defined_density_reject (num comb sz : Nat)
    (h : num < 2 ^ (sz / 2)) :
    lut_is_defined num comb sz = false := by
  unfold lut_is_defined
  rw [if_pos]
  rwa [Nat.shiftLeft_eq, one_mul]

/-- Witness for C9 at `num = 1`, `comb = 19`, `sz = 3`. -/
theorem lut_is_defined_density_reject_witness :
    1 < 2 ^ (3 / 2) ∧ lut_is_defined 1 19 3 = false :=
  ⟨by decide, lut_is_defined_density_reject 1 19 3 (by decide)⟩

/-- Claim C1: when the first defined position found by
`convert_combination` is 1 or greater, the returned truth table is the
all-zero word (only the position-0 branch of the switch fills it). -/
theorem convert_combination_zero_for_pos_ge_one (comb : Nat)
    (vars : List Nat)
    (hfound : first_defined comb vars.length < vars.length)
    (hge : 1 ≤ first_defined comb vars.length) :
    (convert_combination comb vars).1 = 0 := by
  unfold convert_combination
  simp only []
  rw [if_neg (by omega)]

/-- Witness for C1: combination word 12 over three variables has first
defined position 1, and the truth table comes back zero. -/
theorem convert_combination_zero_for_pos_ge_one_witness :
    first_defined 12 ([10, 20, 30] : List Nat).length < 3 ∧
    1 ≤ first_defined 12 ([10, 20, 30] : List Nat).length ∧
    (convert_combination 12 [10, 20, 30]).1 = 0 :=
  ⟨by decide, by decide,
    convert_combination_zero_for_pos_ge_one 12 [10, 20, 30]
      (by decide) (by decide)⟩

/-- Claim C5: when the eliminated position is 0, bit `j` of the returned
truth table is set exactly when row `2 * j` of the source combination word
is unset, for every `j` below `2 ^ (number of remaining variables)`. -/
theorem convert_combination_pos_zero_fold (comb : Nat) (vars : List Nat)
    (h : first_defined comb vars.length = 0) :
    ∀ j < 2 ^ ((convert_combination comb vars).2.2).length,
      ((convert_combination comb vars).1).testBit j
        = !comb.testBit (2 * j) := by
  intro j hj
  unfold convert_combination at hj ⊢
  simp only [h, eq_self_iff_true, if_true] at hj ⊢
  rw [range_foldl_or_testBit (fun j => comb &&& (1 <<< (2 * j)) = 0)]
  simp only [Nat.zero_testBit, Bool.false_or]
  rw [decide_eq_true (by exact hj)]
  rw [Bool.true_and]
  by_cases hb : comb.testBit (2 * j) = false
  · rw [hb]
    simp [(and_one_shiftLeft_eq_zero comb (2 * j)).mpr hb]
  · have hb' : comb.testBit (2 * j) = true := by
      cases hc : comb.testBit (2 * j)
      · exact absurd hc hb
      · rfl
    rw [hb']
    have : ¬ (comb &&& (1 <<< (2 * j)) = 0) := by
      intro hc
      rw [(and_one_shiftLeft_eq_zero comb (2 * j)).mp hc] at hb'
      exact Bool.false_ne_true hb'
    simp [this]

/-- Witness for C5 at combination word 5 over variables `[1, 2, 3]`. -/
theorem convert_combination_pos_zero_fold_witness :
    first_defined 5 ([1, 2, 3] : List Nat).length = 0 ∧
    ∀ j < 2 ^ ((convert_combination 5 [1, 2, 3]).2.2).length,
      ((convert_combination 5 [1, 2, 3]).1).testBit j
        = !(5 : Nat).testBit (2 * j) :=
  ⟨by decide, convert_combination_pos_zero_fold 5 [1, 2, 3] (by decide)⟩

/-- Bit character of the mask table below position 6: bit `p` of
`init_mask i` is set exactly for `p < 64` with bit `i` of `p` clear. -/
lemma init_mask_testBit (i p : Nat) (hi : i < 6) :
    (init_mask i).testBit p = (decide (p < 64) && !(p.testBit i)) := by
  rcases Nat.lt_or_ge p 64 with hp | hp
  · have hb : ∀ j < 6, ∀ q < 64,
        ((init_mask j).testBit q = !(q.testBit j)) := by decide
    simp [hb i hi p hp, hp]
  · have h1 : init_mask i < 2 ^ 64 := by interval_cases i <;> decide
    have h2 : (init_mask i).testBit p = false :=
      Nat.testBit_lt_two_pow
        (lt_of_lt_of_le h1 (Nat.pow_le_pow_right (by norm_num) hp))
    simp [h2, Nat.not_lt.mpr hp]

/-- Claim C2 as stated is false: for position 0 at size 6 the word with
every even row witnessed and every odd row missing passes
`lut_is_defined_at`, yet no assignment of the other variables has both of
its rows witnessed. -/
theorem lut_is_defined_at_both_rows_false :
    ¬ (lut_is_defined_at 0 6 0x5555555555555555 = true ↔
        ∀ p < 64, Nat.testBit p 0 = false →
          (Nat.testBit 0x5555555555555555 p = true ∧
           Nat.testBit 0x5555555555555555 (p + 1) = true)) := by
  decide

/-- Claim C2, amended: `lut_is_defined_at i sz comb` holds exactly when,
for every row position `p` below `sz` (below 64 when `sz = 6`) at which
variable `i` is false, at least one of row `p` and row `p + 2 ^ i` is
witnessed in the word. -/
theorem lut_is_defined_at_pair_coverage (i sz comb : Nat)
    (h3 : 3 ≤ sz) (h6 : sz ≤ 6) (hisz : i < sz) :
    (lut_is_defined_at i sz comb = true ↔
      ∀ p < (if sz = 6 then 64 else sz), p.testBit i = false →
        (comb.testBit p = true ∨ comb.testBit (p + (1 <<< i)) = true)) := by
  have hi6 : i < 6 := by omega
  have hmchar : ∀ p, ((if sz < 6 then init_mask i &&& ((1 <<< sz) - 1)
      else init_mask i).testBit p = true)
      ↔ (p < (if sz = 6 then 64 else sz) ∧ p.testBit i = false) := by
    intro p
    by_cases hsz : sz < 6
    · have hne : ¬ sz = 6 := by omega
      rw [if_pos hsz, if_neg hne, Nat.testBit_and, init_mask_testBit i p hi6,
        Nat.shiftLeft_eq, one_mul, Nat.testBit_two_pow_sub_one]
      constructor
      · intro hh
        simp only [Bool.and_eq_true, decide_eq_true_eq,
          Bool.not_eq_true'] at hh
        exact ⟨hh.2, hh.1.2⟩
      · intro hh
        have hlt : p < 64 := by omega
        simp [hh.1, hh.2, hlt]
    · have heq : sz = 6 := by omega
      rw [if_neg hsz, if_pos heq, init_mask_testBit i p hi6]
      constructor
      · intro hh
        simp only [Bool.and_eq_true, decide_eq_true_eq,
          Bool.not_eq_true'] at hh
        exact hh
      · intro hh
        simp [hh.1, hh.2]
  unfold lut_is_defined_at
  simp only [beq_iff_eq]
  rw [and_eq_right_iff]
  constructor
  · intro h p hp hbit
    have hh := h p ((hmchar p).mpr ⟨hp, hbit⟩)
    rw [Nat.testBit_or, Nat.testBit_shiftRight] at hh
    rcases Bool.or_eq_true_iff.mp hh with h1 | h1
    · exact Or.inl h1
    · right
      rwa [Nat.add_comm] at h1
  · intro h p hm
    obtain ⟨hp, hbit⟩ := (hmchar p).mp hm
    rw [Nat.testBit_or, Nat.testBit_shiftRight]
    rcases h p hp hbit with h1 | h1
    · simp [h1]
    · rw [Nat.add_comm] at h1
      simp [h1]

/-- Witness for the amended C2 at `i = 1`, `sz = 3`, word 19. -/
theorem lut_is_defined_at_pair_coverage_witness :
    3 ≤ 3 ∧ (3 : Nat) ≤ 6 ∧ 1 < 3 ∧
      (lut_is_defined_at 1 3 19 = true ↔
        ∀ p < (if (3 : Nat) = 6 then 64 else 3), Nat.testBit p 1 = false →
          (Nat.testBit 19 p = true ∨ Nat.testBit 19 (p + (1 <<< 1)) = true)) :=
  ⟨by decide, by decide, by decide,
    lut_is_defined_at_pair_coverage 1 3 19 (by decide) (by decide) (by decide)⟩

/-! Clause-filter monotonicity. -/

/-- Filter fold over literals starting from an arbitrary accumulator. -/
lemma filter_foldl_init (ls : List Literal) :
    ∀ init : Nat,
      ls.foldl (fun f l => f ||| (1 <<< (l.var % 32))) init
        = init ||| ls.foldl (fun f l => f ||| (1 <<< (l.var % 32))) 0 := by
  induction ls with
  | nil => intro init; simp
  | cons a rest ih =>
    intro init
    simp only [List.foldl_cons]
    rw [ih (init ||| (1 <<< (a.var % 32))), ih (0 ||| (1 <<< (a.var % 32)))]
    rw [Nat.zero_or, Nat.or_assoc]

/-- Absorption: the bit of a variable occurring in the clause is already
part of the clause's filter. -/
lemma filter_absorb_mem (ls : List Literal) (v : Nat)
    (hv : v ∈ ls.map Literal.var) :
    (ls.foldl (fun f l => f ||| (1 <<< (l.var % 32))) 0) ||| (1 <<< (v % 32))
      = ls.foldl (fun f l => f ||| (1 <<< (l.var % 32))) 0 := by
  induction ls with
  | nil => simp at hv
  | cons a rest ih =>
    simp only [List.foldl_cons, Nat.zero_or]
    rw [filter_foldl_init rest (1 <<< (a.var % 32))]
    rcases List.mem_cons.mp hv with h | h
    · subst h
      rw [Nat.or_assoc, Nat.or_comm _ (1 <<< (a.var % 32)), ← Nat.or_assoc,
        Nat.or_self]
    · rw [Nat.or_assoc, ih h]

/-- Claim C7: the coarse clause filter is monotonic in variable-set
inclusion: if every variable of `B` occurs in `A`, OR-ing the two filters
gives back `A`'s filter, so the superset test never yields a false
negative. -/
theorem get_clause_filter_monotone (A B : Clause)
    (h : ∀ v ∈ B.lits.map Literal.var, v ∈ A.lits.map Literal.var) :
    get_clause_filter A ||| get_clause_filter B = get_clause_filter A := by
  unfold get_clause_filter
  suffices hgen : ∀ bl : List Literal,
      (∀ v ∈ bl.map Literal.var, v ∈ A.lits.map Literal.var) →
      A.lits.foldl (fun f l => f ||| (1 <<< (l.var % 32))) 0 |||
          bl.foldl (fun f l => f ||| (1 <<< (l.var % 32))) 0
        = A.lits.foldl (fun f l => f ||| (1 <<< (l.var % 32))) 0 by
    exact hgen B.lits h
  intro bl
  induction bl with
  | nil => intro _; simp
  | cons b rest ih =>
    intro hsub
    simp only [List.foldl_cons, Nat.zero_or]
    rw [filter_foldl_init rest (1 <<< (b.var % 32)), ← Nat.or_assoc]
    rw [filter_absorb_mem A.lits b.var (hsub b.var (by simp))]
    exact ih (fun v hv => hsub v (by simp [hv]))

/-- Witness for C7 on concrete clauses with variable sets {0, 1} ⊇ {1}. -/
theorem get_clause_filter_monotone_witness :
    (∀ v ∈ (Clause.mk [⟨1, true⟩] false false).lits.map Literal.var,
        v ∈ (Clause.mk [⟨0, false⟩, ⟨1, false⟩] false false).lits.map
          Literal.var) ∧
    get_clause_filter ⟨[⟨0, false⟩, ⟨1, false⟩], false, false⟩ |||
        get_clause_filter ⟨[⟨1, true⟩], false, false⟩
      = get_clause_filter ⟨[⟨0, false⟩, ⟨1, false⟩], false, false⟩ :=
  ⟨by decide,
    get_clause_filter_monotone ⟨[⟨0, false⟩, ⟨1, false⟩], false, false⟩
      ⟨[⟨1, true⟩], false, false⟩ (by decide)⟩

/-! Lemmas on `set_combination` and the completion enumeration. -/

/-- Marking a row never touches the variable list. -/
lemma set_combination_vars (st : Attempt) (m : Nat) :
    (set_combination st m).vars = st.vars := by
  unfold set_combination
  by_cases h : st.combination.testBit m <;> simp [h]

/-- Marking a row never touches the removal schedule. -/
lemma set_combination_toRemove (st : Attempt) (m : Nat) :
    (set_combination st m).toRemove = st.toRemove := by
  unfold set_combination
  by_cases h : st.combination.testBit m <;> simp [h]

/-- Bits after marking one row: old bits plus bit `m`. -/
lemma set_combination_testBit (st : Attempt) (m p : Nat) :
    (set_combination st m).combination.testBit p
      = (st.combination.testBit p || decide (m = p)) := by
  unfold set_combination
  by_cases h : st.combination.testBit m
  · rw [if_pos h]
    by_cases hp : m = p
    · subst hp
      simp [h]
    · simp [hp]
  · rw [if_neg h]
    show (st.combination ||| 1 <<< m).testBit p = _
    rw [Nat.testBit_or, one_shiftLeft_testBit]

/-- Folding `set_combination` over a row list preserves the variables. -/
lemma foldl_set_comb_vars (rows : List Nat) :
    ∀ st : Attempt, (rows.foldl set_combination st).vars = st.vars := by
  induction rows with
  | nil => intro st; rfl
  | cons r rest ih =>
    intro st
    simp only [List.foldl_cons]
    rw [ih, set_combination_vars]

/-- Folding `set_combination` over a row list preserves the schedule. -/
lemma foldl_set_comb_toRemove (rows : List Nat) :
    ∀ st : Attempt, (rows.foldl set_combination st).toRemove = st.toRemove := by
  induction rows with
  | nil => intro st; rfl
  | cons r rest ih =>
    intro st
    simp only [List.foldl_cons]
    rw [ih, set_combination_toRemove]

/-- Bits after folding `set_combination`: old bits plus the listed rows. -/
lemma foldl_set_comb_testBit (rows : List Nat) :
    ∀ (st : Attempt) (p : Nat),
      ((rows.foldl set_combination st).combination.testBit p = true)
        ↔ (st.combination.testBit p = true ∨ p ∈ rows) := by
  induction rows with
  | nil => intro st p; simp
  | cons r rest ih =>
    intro st p
    simp only [List.foldl_cons]
    rw [ih]
    rw [Bool.eq_iff_iff.mp (set_combination_testBit st r p)]
    simp only [Bool.or_eq_true, decide_eq_true_eq, List.mem_cons]
    constructor
    · rintro ((h | h) | h)
      · exact Or.inl h
      · exact Or.inr (Or.inl h.symm)
      · exact Or.inr (Or.inr h)
    · rintro (h | h | h)
      · exact Or.inl (Or.inl h)
      · exact Or.inl (Or.inr h.symm)
      · exact Or.inr h

/-- Row count after folding `set_combination` over pairwise-distinct rows:
each row not already present adds one. -/
lemma foldl_set_comb_num (rows : List Nat) :
    ∀ st : Attempt, rows.Nodup →
      (rows.foldl set_combination st).num_combinations
        = st.num_combinations
            + rows.countP (fun q => !st.combination.testBit q) := by
  induction rows with
  | nil => intro st _; simp
  | cons r rest ih =>
    intro st hnd
    have hr : r ∉ rest := (List.nodup_cons.mp hnd).1
    have hrest : rest.Nodup := (List.nodup_cons.mp hnd).2
    simp only [List.foldl_cons]
    rw [ih (set_combination st r) hrest]
    have hcong : rest.countP
          (fun q => !(set_combination st r).combination.testBit q)
        = rest.countP (fun q => !st.combination.testBit q) := by
      apply List.countP_congr
      intro q hq
      have hne : r ≠ q := fun he => hr (he ▸ hq)
      rw [set_combination_testBit]
      simp [hne]
    rw [hcong, List.countP_cons]
    have hnum : (set_combination st r).num_combinations
        = st.num_combinations
            + (if st.combination.testBit r then 0 else 1) := by
      unfold set_combination
      by_cases h : st.combination.testBit r <;> simp [h]
    rw [hnum]
    by_cases h : st.combination.testBit r <;> simp [h] <;> omega

/-- Bit character of `mask2Aux`: the accumulator's bits plus, for each
missing position, the corresponding enumeration bit of `k`. -/
lemma mask2Aux_testBit (k : Nat) :
    ∀ (missing : List Nat) (i m2 p : Nat),
      ((mask2Aux k missing i m2).testBit p = true)
        ↔ (m2.testBit p = true ∨
            ∃ j, ∃ hj : j < missing.length,
              missing[j] = p ∧ k.testBit (i + j) = true) := by
  intro missing
  induction missing with
  | nil =>
    intro i m2 p
    simp [mask2Aux]
  | cons q rest ih =>
    intro i m2 p
    show ((mask2Aux k rest (i + 1)
        (if k.testBit i then m2 ||| (1 <<< q) else m2)).testBit p = true) ↔ _
    rw [ih]
    have hm2 : ((if k.testBit i then m2 ||| (1 <<< q) else m2).testBit p
          = true)
        ↔ (m2.testBit p = true ∨ (k.testBit i = true ∧ q = p)) := by
      by_cases hk : k.testBit i
      · rw [if_pos hk, Nat.testBit_or, one_shiftLeft_testBit]
        simp [hk]
      · rw [if_neg hk]
        simp [hk]
    rw [hm2]
    constructor
    · rintro ((h | ⟨hk, hq⟩) | ⟨j, hj, hjp, hk⟩)
      · exact Or.inl h
      · exact Or.inr ⟨0, by simp, by simpa using hq, by simpa using hk⟩
      · refine Or.inr ⟨j + 1, by simpa using Nat.succ_lt_succ hj, ?_, ?_⟩
        · simpa using hjp
        · have : i + 1 + j = i + (j + 1) := by omega
          rwa [this] at hk
    · rintro (h | ⟨j, hj, hjp, hk⟩)
      · exact Or.inl (Or.inl h)
      · match j, hj with
        | 0, hj =>
          left
          right
          refine ⟨by simpa using hk, by simpa using hjp⟩
        | j + 1, hj =>
          right
          refine ⟨j, by simpa using Nat.lt_of_succ_lt_succ hj, by simpa using hjp, ?_⟩
          have : i + (j + 1) = i + 1 + j := by omega
          rwa [this] at hk

/-- Bit character of a completed row mask. -/
lemma mask2_of_testBit (mask : Nat) (missing : List Nat) (k p : Nat) :
    ((mask2_of mask missing k).testBit p = true)
      ↔ (mask.testBit p = true ∨
          ∃ j, ∃ hj : j < missing.length,
            missing[j] = p ∧ k.testBit j = true) := by
  unfold mask2_of
  rw [mask2Aux_testBit]
  simp

/-- At a missing position, a completed row mask carries exactly the
corresponding enumeration bit. -/
lemma mask2_of_testBit_at_missing (mask : Nat) (missing : List Nat)
    (hnd : missing.Nodup)
    (hdisj : ∀ q ∈ missing, mask.testBit q = false)
    (k j : Nat) (hj : j < missing.length) :
    (mask2_of mask missing k).testBit missing[j] = k.testBit j := by
  rw [Bool.eq_iff_iff, mask2_of_testBit]
  constructor
  · rintro (h | ⟨j2, hj2, hjp, hk⟩)
    · rw [hdisj missing[j] (List.getElem_mem hj)] at h
      exact absurd h (by simp)
    · have : j2 = j := (List.Nodup.getElem_inj_iff hnd).mp hjp
      rwa [this] at hk
  · intro h
    exact Or.inr ⟨j, hj, rfl, h⟩

/-- Completion enumeration is injective below `2 ^ missing.length`. -/
lemma mask2_of_inj (mask : Nat) (missing : List Nat)
    (hnd : missing.Nodup)
    (hdisj : ∀ q ∈ missing, mask.testBit q = false)
    (k1 k2 : Nat) (h1 : k1 < 2 ^ missing.length)
    (h2 : k2 < 2 ^ missing.length)
    (he : mask2_of mask missing k1 = mask2_of mask missing k2) :
    k1 = k2 := by
  apply Nat.eq_of_testBit_eq
  intro b
  rcases Nat.lt_or_ge b missing.length with hb | hb
  · rw [← mask2_of_testBit_at_missing mask missing hnd hdisj k1 b hb,
      ← mask2_of_testBit_at_missing mask missing hnd hdisj k2 b hb, he]
  · have hp : 2 ^ missing.length ≤ 2 ^ b :=
      Nat.pow_le_pow_right (by norm_num) hb
    rw [Nat.testBit_lt_two_pow (lt_of_lt_of_le h1 hp),
      Nat.testBit_lt_two_pow (lt_of_lt_of_le h2 hp)]

/-- Unfolding of `update_combinations` as a plain fold over the completed
row masks. -/
lemma update_combinations_fold_eq (st : Attempt) (mask : Nat)
    (missing : List Nat) :
    (update_combinations st mask missing).1
      = ((List.range (2 ^ missing.length)).map
          (mask2_of mask missing)).foldl set_combination st := by
  unfold update_combinations
  rw [List.foldl_map]

/-- Claim C6: `update_combinations` marks as witnessed exactly the rows
obtained from the base mask by enumerating all completions of the missing
positions, increments the witnessed count once per completion row not
already set, and leaves every other row (and the rest of the attempt
state) unchanged. -/
theorem update_combinations_marks_completions (st : Attempt) (mask : Nat)
    (missing : List Nat) (hnd : missing.Nodup)
    (hdisj : ∀ q ∈ missing, mask.testBit q = false) :
    (∀ p, ((update_combinations st mask missing).1.combination.testBit p
          = true)
        ↔ (st.combination.testBit p = true ∨
            ∃ k < 2 ^ missing.length, mask2_of mask missing k = p)) ∧
    (update_combinations st mask missing).1.num_combinations
      = st.num_combinations
          + (List.range (2 ^ missing.length)).countP
              (fun k => !st.combination.testBit (mask2_of mask missing k)) ∧
    (update_combinations st mask missing).1.vars = st.vars ∧
    (update_combinations st mask missing).1.toRemove = st.toRemove := by
  rw [update_combinations_fold_eq]
  have hinj : ((List.range (2 ^ missing.length)).map
      (mask2_of mask missing)).Nodup := by
    apply List.Nodup.map_on
    · intro x hx y hy he
      exact mask2_of_inj mask missing hnd hdisj x y
        (List.mem_range.mp hx) (List.mem_range.mp hy) he
    · exact List.nodup_range _
  refine ⟨?_, ?_, foldl_set_comb_vars _ st, foldl_set_comb_toRemove _ st⟩
  · intro p
    rw [foldl_set_comb_testBit]
    constructor
    · rintro (h | h)
      · exact Or.inl h
      · obtain ⟨k, hk, hkp⟩ := List.mem_map.mp h
        exact Or.inr ⟨k, List.mem_range.mp hk, hkp⟩
    · rintro (h | ⟨k, hk, hkp⟩)
      · exact Or.inl h
      · exact Or.inr (List.mem_map.mpr ⟨k, List.mem_range.mpr hk, hkp⟩)
  · rw [foldl_set_comb_num _ st hinj, List.countP_map]
    rfl

/-- Witness for C6: seeded three-variable attempt, base mask 0, missing
position 2. -/
theorem update_combinations_marks_completions_witness :
    ([2] : List Nat).Nodup ∧
    (∀ q ∈ ([2] : List Nat), (0 : Nat).testBit q = false) ∧
    ((∀ p, ((update_combinations ⟨[0, 1, 2], 1, 1, [0]⟩ 0 [2]).1.combination.testBit p
          = true)
        ↔ ((1 : Nat).testBit p = true ∨
            ∃ k < 2 ^ ([2] : List Nat).length, mask2_of 0 [2] k = p)) ∧
    (update_combinations ⟨[0, 1, 2], 1, 1, [0]⟩ 0 [2]).1.num_combinations
      = 1 + (List.range (2 ^ ([2] : List Nat).length)).countP
              (fun k => !(1 : Nat).testBit (mask2_of 0 [2] k)) ∧
    (update_combinations ⟨[0, 1, 2], 1, 1, [0]⟩ 0 [2]).1.vars = [0, 1, 2] ∧
    (update_combinations ⟨[0, 1, 2], 1, 1, [0]⟩ 0 [2]).1.toRemove = [0]) :=
  ⟨by decide, by decide,
    update_combinations_marks_completions ⟨[0, 1, 2], 1, 1, [0]⟩ 0 [2]
      (by decide) (by decide)⟩

/-! Removal scheduling. -/

/-- Updating combinations never touches the removal schedule. -/
lemma update_combinations_toRemove (st : Attempt) (mask : Nat)
    (missing : List Nat) :
    (update_combinations st mask missing).1.toRemove = st.toRemove := by
  rw [update_combinations_fold_eq]
  exact foldl_set_comb_toRemove _ st

/-- Updating combinations never touches the variable list. -/
lemma update_combinations_vars (st : Attempt) (mask : Nat)
    (missing : List Nat) :
    (update_combinations st mask missing).1.vars = st.vars := by
  rw [update_combinations_fold_eq]
  exact foldl_set_comb_vars _ st

/-- Claim C3 as stated is false on the code: in the run seeded by clause 0
of `c3db`, clause 1 contributes witnessed rows (it changes the combination
word), the attempt then succeeds on clause 2, yet the removal schedule
handed to `add_lut` holds only the seed — the contributing size-2 clauses
are left unflagged. -/
theorem removal_set_counterexample :
    (extract_lut_clause c3db c3st0 1).2 = false ∧
    (extract_lut_clause c3db c3st0 1).1.att.combination
      ≠ c3st0.att.combination ∧
    (extract_lut_clause c3db (extract_lut_clause c3db c3st0 1).1 2).2
      = true ∧
    (add_lut (extract_lut_clause c3db
        (extract_lut_clause c3db c3st0 1).1 2).1).g.removed = [0] ∧
    (1 : Nat) ∉ (add_lut (extract_lut_clause c3db
        (extract_lut_clause c3db c3st0 1).1 2).1).g.removed := by
  refine ⟨by decide, by decide, by decide, by decide, by decide⟩

/-- Claim C3, amended: the removal schedule collects exactly the seed
clause plus those filter-index extension clauses that pass the
all-variables-visited check and whose size equals the candidate variable
count; binary implications never add to the schedule, and `add_lut` flags
exactly the scheduled clauses. -/
theorem removal_flagging_exact :
    (∀ (st : Attempt) (l1 l2 : Literal),
      (extract_lut_bin st l1 l2).1.toRemove = st.toRemove) ∧
    (∀ (db : List Clause) (st : CheckSt) (cid : Nat),
      (extract_lut_clause db st cid).1.att.toRemove
        = if ((db.getD cid defaultClause).lits.all
                (fun l => l.var ∈ st.att.vars) = true) ∧
             (db.getD cid defaultClause).lits.length = st.att.vars.length
          then st.att.toRemove ++ [cid] else st.att.toRemove) ∧
    (∀ st : CheckSt, (add_lut st).g.removed
        = st.g.removed ++ st.att.toRemove) := by
  refine ⟨?_, ?_, ?_⟩
  · intro st l1 l2
    unfold extract_lut_bin
    rw [update_combinations_toRemove]
  · intro db st cid
    unfold extract_lut_clause
    by_cases hall : (db.getD cid defaultClause).lits.all
        (fun l => l.var ∈ st.att.vars)
    · rw [if_pos hall]
      by_cases hlen : (db.getD cid defaultClause).lits.length
          = st.att.vars.length
      · rw [if_pos hlen]
        simp only [update_combinations_toRemove]
        rw [if_pos ⟨hall, hlen⟩]
      · rw [if_neg hlen]
        simp only [update_combinations_toRemove]
        rw [if_neg (fun hc => hlen hc.2)]
    · rw [if_neg hall]
      rw [if_neg (fun hc => hall hc.1)]
  · intro st
    rfl

/-! Filter-index size bound. -/

/-- Claim C10: a clause admitted by the clause-filter index has
pairwise-distinct variables, so once all its variables pass the visited
check (membership in the candidate variable list) its size is bounded by
the candidate variable count and the assertion
`c2.size() <= m_vars.size()` cannot fail. -/
theorem filter_index_clause_size_le (maxSz : Nat) (clauses : List Clause)
    (v f cid : Nat)
    (hmem : (f, cid) ∈ init_clause_filter maxSz clauses v)
    (vars : List Nat)
    (hvis : (clauses.getD cid defaultClause).lits.all
        (fun l => l.var ∈ vars) = true) :
    (clauses.getD cid defaultClause).lits.length ≤ vars.length := by
  unfold init_clause_filter at hmem
  obtain ⟨p, hp, hpe⟩ := List.mem_map.mp hmem
  obtain ⟨hpmem, hcond⟩ := List.mem_filter.mp hp
  obtain ⟨i, c⟩ := p
  have hic := List.mem_enum hpmem
  have hcid : i = cid := congrArg Prod.snd hpe
  subst hcid
  have hc : clauses.getD i defaultClause = c := by
    rw [List.getD_eq_getElem clauses defaultClause hic.1, ← hic.2]
  rw [hc]
  have hdist : all_distinct c := by
    simp only [decide_eq_true_eq] at hcond
    exact hcond.2.1
  have hnd : (c.lits.map Literal.var).Nodup := hdist
  rw [hc] at hvis
  have hsub : (c.lits.map Literal.var).toFinset ⊆ vars.toFinset := by
    intro x hx
    rw [List.mem_toFinset] at hx ⊢
    obtain ⟨l, hl, hlv⟩ := List.mem_map.mp hx
    have := List.all_eq_true.mp hvis l hl
    simp only [decide_eq_true_eq] at this
    exact hlv ▸ this
  calc c.lits.length = (c.lits.map Literal.var).length :=
        (List.length_map _ _).symm
    _ = (c.lits.map Literal.var).toFinset.card :=
        (List.toFinset_card_of_nodup hnd).symm
    _ ≤ vars.toFinset.card := Finset.card_le_card hsub
    _ ≤ vars.length := List.toFinset_card_le vars

/-- Witness for C10 on the one-clause database `c10clauses`. -/
theorem filter_index_clause_size_le_witness :
    ((3, 0) ∈ init_clause_filter 3 c10clauses 0) ∧
    ((c10clauses.getD 0 defaultClause).lits.all
        (fun l => l.var ∈ ([0, 1, 5] : List Nat)) = true) ∧
    (c10clauses.getD 0 defaultClause).lits.length
      ≤ ([0, 1, 5] : List Nat).length :=
  ⟨by decide, by decide,
    filter_index_clause_size_le 3 c10clauses 0 3 0 (by decide)
      [0, 1, 5] (by decide)⟩

/-! Matching-loop invariants for the pass lifecycle. -/

/-- Reporting a LUT leaves the attempt state alone. -/
lemma add_lut_att (st : CheckSt) : (add_lut st).att = st.att := rfl

/-- Reporting a LUT leaves the used flags alone. -/
lemma add_lut_used (st : CheckSt) : (add_lut st).g.used = st.g.used := rfl

/-- Reporting a LUT appends the schedule to the removed clauses. -/
lemma add_lut_removed (st : CheckSt) :
    (add_lut st).g.removed = st.g.removed ++ st.att.toRemove := rfl

/-- Binary extraction leaves the removal schedule alone. -/
lemma extract_lut_bin_toRemove (st : Attempt) (l1 l2 : Literal) :
    (extract_lut_bin st l1 l2).1.toRemove = st.toRemove := by
  unfold extract_lut_bin
  rw [update_combinations_toRemove]

/-- Effect of clause extraction on schedule, variables and global state:
either nothing global changes, or the clause is both scheduled and marked
used. -/
lemma extract_lut_clause_cases (db : List Clause) (st : CheckSt)
    (cid : Nat) :
    ((extract_lut_clause db st cid).1.att.toRemove = st.att.toRemove ∧
     (extract_lut_clause db st cid).1.att.vars = st.att.vars ∧
     (extract_lut_clause db st cid).1.g = st.g) ∨
    ((extract_lut_clause db st cid).1.att.toRemove
        = st.att.toRemove ++ [cid] ∧
     (extract_lut_clause db st cid).1.att.vars = st.att.vars ∧
     (extract_lut_clause db st cid).1.g
        = ⟨st.g.used ++ [cid], st.g.removed, st.g.luts⟩) := by
  unfold extract_lut_clause
  by_cases hall : (db.getD cid defaultClause).lits.all
      (fun l => l.var ∈ st.att.vars)
  · rw [if_pos hall]
    by_cases hlen : (db.getD cid defaultClause).lits.length
        = st.att.vars.length
    · rw [if_pos hlen]
      right
      refine ⟨?_, ?_, rfl⟩
      · rw [update_combinations_toRemove]
      · rw [update_combinations_vars]
    · rw [if_neg hlen]
      left
      refine ⟨?_, ?_, rfl⟩
      · rw [update_combinations_toRemove]
      · rw [update_combinations_vars]
  · rw [if_neg hall]
    left
    exact ⟨rfl, rfl, rfl⟩

/-- The step relation is reflexive. -/
lemma stepOk_refl (r : RunSt) : StepOk r r := by
  refine ⟨fun j hj => hj, fun j hj => Or.inl hj, fun j hj => Or.inl hj,
    fun _ => ⟨rfl, rfl⟩, fun _ => rfl⟩

/-- The step relation composes. -/
lemma stepOk_trans {a b c : RunSt} (hab : StepOk a b) (hbc : StepOk b c) :
    StepOk a c := by
  obtain ⟨ab1, ab2, ab3, ab4, ab5⟩ := hab
  obtain ⟨bc1, bc2, bc3, bc4, bc5⟩ := hbc
  refine ⟨fun j hj => bc1 j (ab1 j hj), ?_, ?_, ?_, ?_⟩
  · intro j hj
    rcases bc2 j hj with h | h
    · exact ab2 j h
    · exact Or.inr (fun hc => h (ab1 j hc))
  · intro j hj
    rcases bc3 j hj with h | ⟨h1, h2⟩
    · rcases ab3 j h with h2 | ⟨h1a, h2a⟩
      · exact Or.inl h2
      · exact Or.inr ⟨h1a, bc1 j h2a⟩
    · rcases h1 with h1 | h1
      · rcases ab2 j h1 with h3 | h3
        · exact Or.inr ⟨Or.inl h3, h2⟩
        · exact Or.inr ⟨Or.inr h3, h2⟩
      · exact Or.inr ⟨Or.inr (fun hc => h1 (ab1 j hc)), h2⟩
  · intro hc
    have hb : b.done = false := by
      cases hdb : b.done
      · rfl
      · rw [bc5 hdb] at hc
        rw [hdb] at hc
        exact absurd hc (by simp)
    obtain ⟨e1, e2⟩ := ab4 hb
    obtain ⟨e3, e4⟩ := bc4 hc
    exact ⟨e3.trans e1, e4.trans e2⟩
  · intro ha
    rw [bc5 (by rw [ab5 ha]; rw [ha]), ab5 ha]

/-- Reduction of `check_step` once the attempt already succeeded. -/
lemma check_step_done (db : List Clause) (flt : Nat) (r : RunSt) (e : Ev)
    (hd : r.done = true) : check_step db flt r e = r := by
  unfold check_step
  rw [if_pos hd]

/-- Reduction of `check_step` on a filter-index clause event. -/
lemma check_step_cl (db : List Clause) (flt : Nat) (r : RunSt)
    (f cid : Nat) (hd : r.done = false) :
    check_step db flt r (Ev.cl f cid)
      = if flt = (flt ||| f) ∧ cid ∉ r.st.g.used then
          (if (extract_lut_clause db r.st cid).2 then
            ⟨add_lut (extract_lut_clause db r.st cid).1, true⟩
          else ⟨(extract_lut_clause db r.st cid).1, false⟩)
        else r := by
  unfold check_step
  rw [if_neg (by rw [hd]; exact Bool.false_ne_true)]

/-- Reduction of `check_step` on a binary-implication event. -/
lemma check_step_bin (db : List Clause) (flt : Nat) (r : RunSt)
    (l1 l2 : Literal) (hd : r.done = false) :
    check_step db flt r (Ev.bin l1 l2)
      = if (extract_lut_bin r.st.att l1 l2).2 then
          ⟨add_lut { r.st with att := (extract_lut_bin r.st.att l1 l2).1 },
            true⟩
        else ⟨{ r.st with att := (extract_lut_bin r.st.att l1 l2).1 },
          false⟩ := by
  unfold check_step
  rw [if_neg (by rw [hd]; exact Bool.false_ne_true)]

/-- One matching step preserves wellformedness. -/
lemma check_step_wf (db : List Clause) (flt : Nat) (r : RunSt) (e : Ev)
    (hwf : WFr r) : WFr (check_step db flt r e) := by
  cases hd : r.done
  · cases e with
    | cl f cid =>
      rw [check_step_cl db flt r f cid hd]
      by_cases hg : flt = (flt ||| f) ∧ cid ∉ r.st.g.used
      · rw [if_pos hg]
        rcases extract_lut_clause_cases db r.st cid with
          ⟨h1, hv, h3⟩ | ⟨h1, hv, h3⟩ <;>
          cases hs : (extract_lut_clause db r.st cid).2
        · rw [if_neg Bool.false_ne_true]
          intro j hj
          rw [h1] at hj
          rw [h3]
          exact hwf j hj
        · rw [if_pos rfl]
          intro j hj
          rw [add_lut_att, h1] at hj
          rw [add_lut_used, h3]
          exact hwf j hj
        · rw [if_neg Bool.false_ne_true]
          intro j hj
          rw [h1] at hj
          rw [h3]
          rcases List.mem_append.mp hj with h | h
          · exact List.mem_append.mpr (Or.inl (hwf j h))
          · exact List.mem_append.mpr (Or.inr h)
        · rw [if_pos rfl]
          intro j hj
          rw [add_lut_att, h1] at hj
          rw [add_lut_used, h3]
          rcases List.mem_append.mp hj with h | h
          · exact List.mem_append.mpr (Or.inl (hwf j h))
          · exact List.mem_append.mpr (Or.inr h)
      · rw [if_neg hg]
        exact hwf
    | bin l1 l2 =>
      rw [check_step_bin db flt r l1 l2 hd]
      cases hs : (extract_lut_bin r.st.att l1 l2).2
      · rw [if_neg Bool.false_ne_true]
        intro j hj
        simp only [extract_lut_bin_toRemove] at hj
        exact hwf j hj
      · rw [if_pos rfl]
        intro j hj
        rw [add_lut_att] at hj
        simp only [extract_lut_bin_toRemove] at hj
        rw [add_lut_used]
        exact hwf j hj
  · rw [check_step_done db flt r e hd]
    exact hwf

/-- One matching step satisfies the step relation. -/
lemma check_step_ok (db : List Clause) (flt : Nat) (r : RunSt) (e : Ev)
    (hwf : WFr r) : StepOk r (check_step db flt r e) := by
  cases hd : r.done
  · cases e with
    | cl f cid =>
      rw [check_step_cl db flt r f cid hd]
      by_cases hg : flt = (flt ||| f) ∧ cid ∉ r.st.g.used
      · rw [if_pos hg]
        rcases extract_lut_clause_cases db r.st cid with
          ⟨h1, hv, h3⟩ | ⟨h1, hv, h3⟩ <;>
          cases hs : (extract_lut_clause db r.st cid).2
        · -- no push, failure
          rw [if_neg Bool.false_ne_true]
          refine ⟨?_, ?_, ?_, ?_, ?_⟩
          · intro j hj
            rw [h3]
            exact hj
          · intro j hj
            rw [h1] at hj
            exact Or.inl hj
          · intro j hj
            rw [h3] at hj
            exact Or.inl hj
          · intro _
            rw [h3]
            exact ⟨rfl, rfl⟩
          · intro hc
            rw [hc] at hd
            exact absurd hd (by simp)
        · -- no push, success
          rw [if_pos rfl]
          refine ⟨?_, ?_, ?_, ?_, ?_⟩
          · intro j hj
            rw [add_lut_used, h3]
            exact hj
          · intro j hj
            rw [add_lut_att, h1] at hj
            exact Or.inl hj
          · intro j hj
            rw [add_lut_removed, h1, h3] at hj
            rcases List.mem_append.mp hj with h | h
            · exact Or.inl h
            · refine Or.inr ⟨Or.inl h, ?_⟩
              rw [add_lut_used, h3]
              exact hwf j h
          · intro hc
            exact absurd hc (by simp)
          · intro hc
            rw [hc] at hd
            exact absurd hd (by simp)
        · -- push, failure
          rw [if_neg Bool.false_ne_true]
          refine ⟨?_, ?_, ?_, ?_, ?_⟩
          · intro j hj
            rw [h3]
            exact List.mem_append.mpr (Or.inl hj)
          · intro j hj
            rw [h1] at hj
            rcases List.mem_append.mp hj with h | h
            · exact Or.inl h
            · rw [List.mem_singleton] at h
              subst h
              exact Or.inr hg.2
          · intro j hj
            rw [h3] at hj
            exact Or.inl hj
          · intro _
            rw [h3]
            exact ⟨rfl, rfl⟩
          · intro hc
            rw [hc] at hd
            exact absurd hd (by simp)
        · -- push, success
          rw [if_pos rfl]
          refine ⟨?_, ?_, ?_, ?_, ?_⟩
          · intro j hj
            rw [add_lut_used, h3]
            exact List.mem_append.mpr (Or.inl hj)
          · intro j hj
            rw [add_lut_att, h1] at hj
            rcases List.mem_append.mp hj with h | h
            · exact Or.inl h
            · rw [List.mem_singleton] at h
              subst h
              exact Or.inr hg.2
          · intro j hj
            rw [add_lut_removed, h1, h3] at hj
            rcases List.mem_append.mp hj with h | h
            · exact Or.inl h
            · rcases List.mem_append.mp h with h2 | h2
              · refine Or.inr ⟨Or.inl h2, ?_⟩
                rw [add_lut_used, h3]
                exact List.mem_append.mpr (Or.inl (hwf j h2))
              · rw [List.mem_singleton] at h2
                subst h2
                refine Or.inr ⟨Or.inr hg.2, ?_⟩
                rw [add_lut_used, h3]
                exact List.mem_append.mpr (Or.inr (by simp))
          · intro hc
            exact absurd hc (by simp)
          · intro hc
            rw [hc] at hd
            exact absurd hd (by simp)
      · rw [if_neg hg]
        exact stepOk_refl r
    | bin l1 l2 =>
      rw [check_step_bin db flt r l1 l2 hd]
      cases hs : (extract_lut_bin r.st.att l1 l2).2
      · rw [if_neg Bool.false_ne_true]
        refine ⟨fun j hj => hj, ?_, fun j hj => Or.inl hj,
          fun _ => ⟨rfl, rfl⟩, ?_⟩
        · intro j hj
          simp only [extract_lut_bin_toRemove] at hj
          exact Or.inl hj
        · intro hc
          rw [hc] at hd
          exact absurd hd (by simp)
      · rw [if_pos rfl]
        refine ⟨?_, ?_, ?_, ?_, ?_⟩
        · intro j hj
          rw [add_lut_used]
          exact hj
        · intro j hj
          rw [add_lut_att] at hj
          simp only [extract_lut_bin_toRemove] at hj
          exact Or.inl hj
        · intro j hj
          rw [add_lut_removed] at hj
          simp only [extract_lut_bin_toRemove] at hj
          rcases List.mem_append.mp hj with h | h
          · exact Or.inl h
          · refine Or.inr ⟨Or.inl h, ?_⟩
            rw [add_lut_used]
            exact hwf j h
        · intro hc
          exact absurd hc (by simp)
        · intro hc
          rw [hc] at hd
          exact absurd hd (by simp)
  · rw [check_step_done db flt r e hd]
    exact stepOk_refl r

/-- Folding the matching loop satisfies the step relation and preserves
wellformedness. -/
lemma check_fold_ok (db : List Clause) (flt : Nat) :
    ∀ (evs : List Ev) (r : RunSt), WFr r →
      StepOk r (evs.foldl (check_step db flt) r) ∧
      WFr (evs.foldl (check_step db flt) r) := by
  intro evs
  induction evs with
  | nil => intro r hwf; exact ⟨stepOk_refl r, hwf⟩
  | cons e rest ih =>
    intro r hwf
    simp only [List.foldl_cons]
    have h1 := check_step_ok db flt r e hwf
    have h2 := check_step_wf db flt r e hwf
    obtain ⟨h3, h4⟩ := ih (check_step db flt r e) h2
    exact ⟨stepOk_trans h1 h3, h4⟩

/-- Used flags recorded by the SEED step. -/
lemma check_start_used (s : Solver) (g : PassSt) (cid : Nat) :
    (check_start s g cid).st.g.used = g.used ++ [cid] := rfl

/-- Removed clauses are untouched by the SEED step. -/
lemma check_start_removed (s : Solver) (g : PassSt) (cid : Nat) :
    (check_start s g cid).st.g.removed = g.removed := rfl

/-- Reported LUTs are untouched by the SEED step. -/
lemma check_start_luts (s : Solver) (g : PassSt) (cid : Nat) :
    (check_start s g cid).st.g.luts = g.luts := rfl

/-- The SEED step schedules exactly the seed clause. -/
lemma check_start_toRemove (s : Solver) (g : PassSt) (cid : Nat) :
    (check_start s g cid).st.att.toRemove = [cid] := by
  show (set_combination _ _).toRemove = [cid]
  rw [set_combination_toRemove]

/-- The SEED step produces a wellformed running state. -/
lemma check_start_wf (s : Solver) (g : PassSt) (cid : Nat) :
    WFr (check_start s g cid) := by
  intro j hj
  rw [check_start_toRemove] at hj
  rw [List.mem_singleton] at hj
  subst hj
  rw [check_start_used]
  exact List.mem_append.mpr (Or.inr (by simp))

/-- Unfolding of `check_lut` through its matching-loop fold. -/
lemma check_lut_eq (s : Solver) (filters : Nat → List (Nat × Nat))
    (g : PassSt) (cid : Nat) :
    check_lut s filters g cid
      = (((attempt_events s filters
            (s.clauses.getD cid defaultClause).lits).foldl
          (check_step s.clauses
            (get_clause_filter (s.clauses.getD cid defaultClause)))
          (check_start s g cid)).st.g,
        ((attempt_events s filters
            (s.clauses.getD cid defaultClause).lits).foldl
          (check_step s.clauses
            (get_clause_filter (s.clauses.getD cid defaultClause)))
          (check_start s g cid)).done) := rfl

/-- Used flags only grow across `check_lut`. -/
lemma check_lut_used_mono (s : Solver) (filters : Nat → List (Nat × Nat))
    (g : PassSt) (cid : Nat) :
    ∀ j ∈ g.used, j ∈ (check_lut s filters g cid).1.used := by
  intro j hj
  rw [check_lut_eq]
  have h := (check_fold_ok s.clauses
    (get_clause_filter (s.clauses.getD cid defaultClause))
    (attempt_events s filters (s.clauses.getD cid defaultClause).lits)
    (check_start s g cid) (check_start_wf s g cid)).1.1
  exact h j (by rw [check_start_used]; exact List.mem_append.mpr (Or.inl hj))

/-- A failed `check_lut` schedules nothing, reports nothing, and leaves
the seed marked used. -/
lemma check_lut_fail (s : Solver) (filters : Nat → List (Nat × Nat))
    (g : PassSt) (cid : Nat)
    (h : (check_lut s filters g cid).2 = false) :
    (check_lut s filters g cid).1.removed = g.removed ∧
    (check_lut s filters g cid).1.luts = g.luts ∧
    cid ∈ (check_lut s filters g cid).1.used := by
  have hso := (check_fold_ok s.clauses
    (get_clause_filter (s.clauses.getD cid defaultClause))
    (attempt_events s filters (s.clauses.getD cid defaultClause).lits)
    (check_start s g cid) (check_start_wf s g cid)).1
  rw [check_lut_eq] at h ⊢
  obtain ⟨e1, e2⟩ := hso.2.2.2.1 h
  refine ⟨by rw [e1, check_start_removed], by rw [e2, check_start_luts], ?_⟩
  exact hso.1 cid
    (by rw [check_start_used]; exact List.mem_append.mpr (Or.inr (by simp)))

/-- Clauses removed by `check_lut` were already removed, are the seed, or
were unused beforehand. -/
lemma check_lut_removed_src (s : Solver)
    (filters : Nat → List (Nat × Nat)) (g : PassSt) (cid : Nat) :
    ∀ j ∈ (check_lut s filters g cid).1.removed,
      j ∈ g.removed ∨ j = cid ∨ j ∉ g.used := by
  intro j hj
  have hso := (check_fold_ok s.clauses
    (get_clause_filter (s.clauses.getD cid defaultClause))
    (attempt_events s filters (s.clauses.getD cid defaultClause).lits)
    (check_start s g cid) (check_start_wf s g cid)).1
  rw [check_lut_eq] at hj
  rcases hso.2.2.1 j hj with h | ⟨h1, _⟩
  · rw [check_start_removed] at h
    exact Or.inl h
  · rcases h1 with h1 | h1
    · rw [check_start_toRemove, List.mem_singleton] at h1
      exact Or.inr (Or.inl h1)
    · rw [check_start_used] at h1
      exact Or.inr (Or.inr fun hc => h1 (List.mem_append.mpr (Or.inl hc)))

/-- If removed clauses were used beforehand, they still are afterwards. -/
lemma check_lut_remok (s : Solver) (filters : Nat → List (Nat × Nat))
    (g : PassSt) (cid : Nat) (hrm : ∀ j ∈ g.removed, j ∈ g.used) :
    ∀ j ∈ (check_lut s filters g cid).1.removed,
      j ∈ (check_lut s filters g cid).1.used := by
  intro j hj
  have hso := (check_fold_ok s.clauses
    (get_clause_filter (s.clauses.getD cid defaultClause))
    (attempt_events s filters (s.clauses.getD cid defaultClause).lits)
    (check_start s g cid) (check_start_wf s g cid)).1
  rw [check_lut_eq] at hj ⊢
  rcases hso.2.2.1 j hj with h | ⟨_, h2⟩
  · rw [check_start_removed] at h
    exact hso.1 j
      (by rw [check_start_used]; exact List.mem_append.mpr (Or.inl (hrm j h)))
  · exact h2

/-- One driver iteration preserves the pass invariant. -/
lemma pass_step_inv (s : Solver) (filters : Nat → List (Nat × Nat))
    (n : Nat) (acc : PassSt × List (Nat × Bool)) (mi : Nat × Nat)
    (hn : mi.2 < n) (hinv : PassInv n acc) :
    PassInv n (pass_step s filters acc mi) := by
  unfold pass_step
  by_cases hg : (s.clauses.getD mi.2 defaultClause).lits.length = mi.1 ∧
      (s.clauses.getD mi.2 defaultClause).removedFlag = false ∧
      (s.clauses.getD mi.2 defaultClause).learned = false ∧
      mi.2 ∉ acc.1.used
  · rw [if_pos hg]
    constructor
    · exact check_lut_remok s filters acc.1 mi.2 hinv.1
    · intro pr hpr
      rcases List.mem_append.mp hpr with h | h
      · obtain ⟨hlt, himpl⟩ := hinv.2 pr h
        refine ⟨hlt, fun hf => ?_⟩
        obtain ⟨hu, hnr⟩ := himpl hf
        refine ⟨check_lut_used_mono s filters acc.1 mi.2 pr.1 hu, ?_⟩
        intro hc
        rcases check_lut_removed_src s filters acc.1 mi.2 pr.1 hc with
          h2 | h2 | h2
        · exact hnr h2
        · rw [h2] at hu
          exact hg.2.2.2 hu
        · exact h2 hu
      · rw [List.mem_singleton] at h
        subst h
        refine ⟨hn, fun hf => ?_⟩
        obtain ⟨e1, _, e3⟩ := check_lut_fail s filters acc.1 mi.2 hf
        refine ⟨e3, ?_⟩
        rw [e1]
        intro hc
        exact hg.2.2.2 (hinv.1 mi.2 hc)
  · rw [if_neg hg]
    exact hinv

/-- The driver fold preserves the pass invariant. -/
lemma pass_fold_inv (s : Solver) (filters : Nat → List (Nat × Nat))
    (n : Nat) :
    ∀ (sched : List (Nat × Nat)) (acc : PassSt × List (Nat × Bool)),
      (∀ mi ∈ sched, mi.2 < n) → PassInv n acc →
      PassInv n (sched.foldl (pass_step s filters) acc) := by
  intro sched
  induction sched with
  | nil => intro acc _ hinv; exact hinv
  | cons mi rest ih =>
    intro acc hb hinv
    simp only [List.foldl_cons]
    exact ih (pass_step s filters acc mi)
      (fun x hx => hb x (List.mem_cons_of_mem mi hx))
      (pass_step_inv s filters n acc mi (hb mi (List.mem_cons_self mi rest))
        hinv)

/-- Every scheduled pair indexes a clause of the database. -/
lemma pass_schedule_snd_lt (maxSz n : Nat) :
    ∀ mi ∈ pass_schedule maxSz n, mi.2 < n := by
  intro mi hmi
  unfold pass_schedule at hmi
  obtain ⟨msz, _, hmem⟩ := List.mem_flatMap.mp hmi
  obtain ⟨i, hi, he⟩ := List.mem_map.mp hmem
  rw [← he]
  exact List.mem_range.mp hi

/-- Claim C4: a seed clause whose attempt ends exhausted (logged with a
false flag) survives the end-of-pass filter, and the exhausted attempt
itself schedules no removals and reports no LUT while leaving only the
pass-scoped used mark, which the closing step clears for every surviving
clause. -/
theorem exhausted_seed_survives (s : Solver) (maxSz iSeed : Nat)
    (hlog : (iSeed, false) ∈ (runPass s maxSz).log) :
    iSeed ∈ (runPass s maxSz).final ∧
    (∀ (filters : Nat → List (Nat × Nat)) (g : PassSt),
      (check_lut s filters g iSeed).2 = false →
      (check_lut s filters g iSeed).1.removed = g.removed ∧
      (check_lut s filters g iSeed).1.luts = g.luts ∧
      iSeed ∈ (check_lut s filters g iSeed).1.used) := by
  constructor
  · have hinv := pass_fold_inv s (init_clause_filter maxSz s.clauses)
      s.clauses.length (pass_schedule maxSz s.clauses.length)
      (⟨⟨[], [], []⟩, []⟩)
      (pass_schedule_snd_lt maxSz s.clauses.length)
      ⟨by simp, by simp⟩
    have hl : (iSeed, false) ∈ ((pass_schedule maxSz
        s.clauses.length).foldl
        (pass_step s (init_clause_filter maxSz s.clauses))
        (⟨⟨[], [], []⟩, []⟩)).2 := hlog
    obtain ⟨hlt, himpl⟩ := hinv.2 (iSeed, false) hl
    obtain ⟨_, hnr⟩ := himpl rfl
    show iSeed ∈ (List.range s.clauses.length).filter _
    rw [List.mem_filter]
    exact ⟨List.mem_range.mpr hlt, by simpa using hnr⟩
  · intro filters g hf
    exact check_lut_fail s filters g iSeed hf

/-- Witness for C4 on the isolated-seed solver `c4solver`. -/
theorem exhausted_seed_survives_witness :
    ((0, false) ∈ (runPass c4solver 3).log) ∧
    (0 ∈ (runPass c4solver 3).final ∧
     (∀ (filters : Nat → List (Nat × Nat)) (g : PassSt),
       (check_lut c4solver filters g 0).2 = false →
       (check_lut c4solver filters g 0).1.removed = g.removed ∧
       (check_lut c4solver filters g 0).1.luts = g.luts ∧
       0 ∈ (check_lut c4solver filters g 0).1.used)) :=
  ⟨by decide, exhausted_seed_survives c4solver 3 0 (by decide)⟩

end SatLut
